import Mathlib

/-!
Shallow embedding of the base-x codec (arbitrary-radix byte/text conversion).

The fixed-capacity big integer (`src/bigintstatic.rs`), the decoder
(`src/decoder.rs`) and the public wrappers (`src/lib.rs`, `src/alphabet.rs`)
are embedded from the source.  Machine integers are modelled as `Nat` with
explicit `% 2^32` (resp. `% 256`) where the source truncates.  Buffers are
`List Nat`; in-place mutation becomes explicit state passing, and fallible
operations return `Except`.

The growable big integer (`bigint.rs`) and the encoder (`encoder.rs`) are not
present under `src/`; the definitions that stand in for them are explicitly
marked `Modelled from the spec:` below.
-/

namespace BaseX

/-- Value of a most-significant-first chunk/byte list in base `B`:
the represented integer `Σ l[i] · B^(length-1-i)`. -/
def msVal (B : Nat) (l : List Nat) : Nat :=
  l.foldl (fun v c => v * B + c) 0

/-- Error type of `BigUintStatic` operations (src/bigintstatic.rs, `BigUintErr`). -/
inductive BigUintErr where
  | BackingArrayTooSmall
  | OutputSliceTooSmall
  deriving DecidableEq

/-- Fixed-capacity big integer (src/bigintstatic.rs, `BigUintStatic<N>`):
an array of `u32` chunks, most significant first, plus a `len` bookkeeping
field.  The const generic `N` is `chunks.length` here. -/
structure BigUintStatic where
  chunks : List Nat
  len : Nat
  deriving DecidableEq

/-- Default value (src/bigintstatic.rs, `impl Default`): `N` zero chunks, `len = 0`. -/
def BigUintStatic.default (N : Nat) : BigUintStatic :=
  { chunks := List.replicate N 0, len := 0 }

/-- Loop body of `div_mod` (src/bigintstatic.rs lines 35-41): most-significant to
least-significant sweep; `carry` is the running remainder (a `u64` in the
source, here exact since `carry < divider < 2^32` keeps every intermediate
below `2^64`).  Each stored chunk is truncated `as u32`. -/
def divModLoop (divider : Nat) : List Nat → Nat → List Nat × Nat
  | [], carry => ([], carry)
  | chunk :: rest, carry =>
    let t := carry * 2^32 + chunk
    let r := divModLoop divider rest (t % divider)
    ((t / divider) % 2^32 :: r.1, r.2)

/-- Divide by `divider`, returning the remainder (src/bigintstatic.rs,
`BigUintStatic::div_mod`).  The source panics on `divider = 0` (division by
zero); the claims only use `divider ≥ 1`. -/
def BigUintStatic.div_mod (b : BigUintStatic) (divider : Nat) : BigUintStatic × Nat :=
  let r := divModLoop divider b.chunks 0
  ({ chunks := r.1, len := b.len }, r.2 % 2^32)

/-- Loop body of `mul_add` (src/bigintstatic.rs lines 55-67) on the reversed
(least-significant-first) chunk list: `t = chunk * multiplicator + carry`,
store the low 32 bits, carry the high bits. -/
def mulAddLoop (multiplicator : Nat) : List Nat → Nat → List Nat × Nat
  | [], carry => ([], carry)
  | chunk :: rest, carry =>
    let t := chunk * multiplicator + carry
    let r := mulAddLoop multiplicator rest (t / 2^32)
    (t % 2^32 :: r.1, r.2)

/-- Multiply by `multiplicator` then add `addition` (src/bigintstatic.rs,
`BigUintStatic::mul_add`).  The addend seeds the carry of the very first
(least-significant) multiplication only; on an empty backing array the
source's `iter.next()` is `None`, the carry stays `0` and the addend is lost.
If a carry remains past the most-significant chunk the source increments
`self.len`, errors only when `self.len + 1 > N`, runs a no-op shift loop
(`for x in self.len..0` iterates over an empty range) and then overwrites
chunk 0 with the carry (`self.chunks[0] = carry as u32`).  On the source's
error path `self` has already been mutated, but the caller (`decode_mut`)
discards it, so the error carries no state here. -/
def BigUintStatic.mul_add (b : BigUintStatic) (multiplicator addition : Nat) :
    Except BigUintErr BigUintStatic :=
  if b.chunks.isEmpty then .ok b
  else
    let r := mulAddLoop multiplicator b.chunks.reverse addition
    if r.2 > 0 then
      if b.len + 1 > b.chunks.length then .error .BackingArrayTooSmall
      else .ok { chunks := (r.1.reverse).set 0 (r.2 % 2^32), len := b.len + 1 }
    else .ok { chunks := r.1.reverse, len := b.len }

/-- Check whether every chunk is zero (src/bigintstatic.rs, `BigUintStatic::is_zero`). -/
def BigUintStatic.is_zero (b : BigUintStatic) : Bool :=
  b.chunks.all (fun chunk => chunk == 0)

/-- Binary length of `n` (number of significant bits), fuel-bounded so that
it evaluates by kernel reduction; for `n < 2^fuel` it equals `Nat.size n`
(`bitLen_eq_size` below). -/
def bitLen : Nat → Nat → Nat
  | 0, _ => 0
  | fuel + 1, n => if n = 0 then 0 else bitLen fuel (n / 2) + 1

/-- Leading zero bits of a `u32` (`u32::leading_zeros`): `32` minus the
binary length (and `32` at zero, as in Rust). -/
def u32_leading_zeros (chunk : Nat) : Nat := 32 - bitLen 32 chunk

/-- Skip count of `into_bytes_be` (src/bigintstatic.rs lines 91-100): four
bytes per leading all-zero chunk, plus `leading_zeros / 8` of the first
nonzero chunk. -/
def skipOf : List Nat → Nat
  | [] => 0
  | chunk :: rest => if chunk ≠ 0 then u32_leading_zeros chunk / 8 else 4 + skipOf rest

/-- Big-endian bytes of one `u32` chunk (the source's `u32::to_be` followed by
a raw byte copy). -/
def toBytesBE4 (chunk : Nat) : List Nat :=
  [chunk / 2^24 % 256, chunk / 2^16 % 256, chunk / 2^8 % 256, chunk % 256]

/-- Big-endian byte image of the whole chunk array. -/
def bytesOfChunks : List Nat → List Nat
  | [] => []
  | chunk :: rest => toBytesBE4 chunk ++ bytesOfChunks rest

/-- Export to minimal big-endian bytes (src/bigintstatic.rs,
`BigUintStatic::into_bytes_be`): compute `skip`, bail out with `Ok` when
nothing remains, error when the output slice is too short, otherwise copy the
`len` bytes past the skipped prefix into the front of `output`; the rest of
`output` keeps its previous contents. -/
def BigUintStatic.into_bytes_be (b : BigUintStatic) (output : List Nat) :
    Except (Nat × Nat) (List Nat) :=
  let skip := skipOf b.chunks
  let len := b.chunks.length * 4 - skip
  if len = 0 then .ok output
  else if output.length < len then .error (output.length, len)
  else .ok ((bytesOfChunks b.chunks).drop skip ++ output.drop len)

/-- Pack consecutive 4-byte groups into chunks, most significant byte first
(the source's `u32::from_be` over the copied byte image). -/
def toChunksBE : List Nat → List Nat
  | b0 :: b1 :: b2 :: b3 :: rest =>
    (((b0 * 256 + b1) * 256 + b2) * 256 + b3) :: toChunksBE rest
  | _ => []

/-- Construct from big-endian bytes (src/bigintstatic.rs,
`BigUintStatic::from_bytes_be`).  The source's guard is
`bytes.len() > len * 4` with `len = bytes.len() / 4 + (modulo > 0)` — this is
never true, so the error branch is dead; the source then performs an
unchecked `copy_nonoverlapping` of `bytes.len()` bytes at offset
`4 - modulo` into the `4 * N`-byte chunk array, which writes out of bounds
(undefined behavior) whenever the bytes need more than `N` chunks
(see `from_bytes_copy_fits`); the model truncates the image instead.
The returned `len` field is `0` regardless of the packed content. -/
def BigUintStatic.from_bytes_be (N : Nat) (bytes : List Nat) :
    Except (Nat × Nat) BigUintStatic :=
  if bytes.length > (bytes.length / 4 + (if bytes.length % 4 > 0 then 1 else 0)) * 4 then
    .error (bytes.length, bytes.length / 4 + (if bytes.length % 4 > 0 then 1 else 0))
  else
    .ok { chunks := toChunksBE ((List.replicate
        (if bytes.length % 4 > 0 then 4 - bytes.length % 4 else 0) 0
      ++ bytes ++ List.replicate (4 * N) 0).take (4 * N)), len := 0 }

/-- Whether the unchecked byte copy of `from_bytes_be` stays inside the
`N`-chunk backing array: the bytes occupy `pad + bytes.length = 4 * needed`
bytes, so the copy fits exactly when the needed chunk count is at most `N`. -/
def from_bytes_copy_fits (N : Nat) (bytes : List Nat) : Bool :=
  decide (bytes.length / 4 + (if bytes.length % 4 > 0 then 1 else 0) ≤ N)

/-- Error type of decoding (src/lib.rs, `DecodeError`). -/
structure DecodeError where
  deriving DecidableEq

/-- Reverse-lookup table of the byte alphabet (src/decoder.rs,
`U8Decoder::new`): a 256-entry array initialised to the sentinel `0xFF`,
then `lookup[byte] = i as u8` for each alphabet entry; a later duplicate
overwrites an earlier one.  The array is modelled as a function on the
byte index space. -/
def u8_table (alphabet : List Nat) : Nat → Nat :=
  alphabet.enum.foldl (fun lookup p => fun c => if c = p.2 then p.1 % 256 else lookup c)
    (fun _ => 255)

/-- Reverse lookup of one input byte (src/decoder.rs, `U8Decoder::carry`):
the sentinel `0xFF` signals an invalid symbol. -/
def u8_carry (alphabet : List Nat) (c : Nat) : Option Nat :=
  if u8_table alphabet c = 255 then none else some (u8_table alphabet c)

/-- Left rotation of a buffer by `mid` (`<[u8]>::rotate_left`).  The source
panics when `mid > len`; the claims only reach `mid ≤ len`. -/
def rotate_left (l : List Nat) (mid : Nat) : List Nat :=
  l.drop mid ++ l.take mid

/-- Digit-accumulation loop of `decode_mut` (src/decoder.rs lines 64-73):
look each input byte up, fold it into the fixed-capacity big integer with
`mul_add(base, carry)`, and fail fast on either a lookup miss or a
`mul_add` error. -/
def decode_mut_loop (alphabet : List Nat) : List Nat → BigUintStatic →
    Except DecodeError BigUintStatic
  | [], big => .ok big
  | c :: rest, big =>
    match u8_carry alphabet c with
    | some carry =>
      match big.mul_add alphabet.length carry with
      | .ok big2 => decode_mut_loop alphabet rest big2
      | .error _ => .error ⟨⟩
    | none => .error ⟨⟩

/-- Fixed-capacity decode (src/decoder.rs, `Decoder::decode_mut`): empty input
returns at once (buffer untouched), otherwise accumulate into a
`BigUintStatic` with `BACKING` chunks, export minimal big-endian bytes into
the front of `output`, count the leading zero-symbol occurrences and rotate
the buffer left by `output.len() - leaders`. -/
def decode_mut (BACKING : Nat) (alphabet : List Nat) (output : List Nat)
    (input : List Nat) : Except DecodeError (List Nat) :=
  if input.isEmpty then .ok output
  else
    match decode_mut_loop alphabet input (BigUintStatic.default BACKING) with
    | .error e => .error e
    | .ok big =>
      match big.into_bytes_be output with
      | .error _ => .error ⟨⟩
      | .ok out2 =>
        let leader := alphabet.getD 0 0
        let leaders := (input.takeWhile (fun c => c == leader)).length
        .ok (rotate_left out2 (out2.length - leaders))

/-- Fuel-driven digit extraction; `fuel` bounds the recursion depth, and each
step emits `v % base` and continues with `v / base` until the value is zero. -/
def digitsVia (base : Nat) : Nat → Nat → List Nat
  | 0, _ => []
  | fuel + 1, v => if v = 0 then [] else v % base :: digitsVia base fuel (v / base)

/-- Least-significant-first digits of `v` in base `base` (for `base ≥ 2` this
equals `Nat.digits`, see `toDigitsLE_eq_digits`). -/
def toDigitsLE (base v : Nat) : List Nat := digitsVia base v v

/-- Modelled from the spec: value of a big-endian byte buffer, as loaded by
the growable big integer's byte constructor (`bigint.rs` is not under
`src/`; section 4.1 of the spec: bytes packed most significant first). -/
def beVal (bytes : List Nat) : Nat :=
  bytes.foldl (fun v byte => v * 256 + byte) 0

/-- Digit-accumulation loop of the allocating decode (src/decoder.rs lines
30-36).  Modelled from the spec: the growable `BigUint` (`bigint.rs`, not
under `src/`) is represented by its value, and its `mul_add(base, carry)`
is Horner accumulation `value * base + carry`, which never fails on the
growable path. -/
def decode_loop (alphabet : List Nat) : List Nat → Nat → Except DecodeError Nat
  | [], big => .ok big
  | c :: rest, big =>
    match u8_carry alphabet c with
    | some carry => decode_loop alphabet rest (big * alphabet.length + carry)
    | none => .error ⟨⟩

/-- Allocating decode (src/decoder.rs, `Decoder::decode`, byte-alphabet path):
empty input decodes to empty output; otherwise accumulate the digits, export
the big integer to minimal big-endian bytes (modelled from the spec for the
growable `BigUint`: minimal-length export, high-order zero bytes skipped),
and prepend one zero byte per leading zero-symbol occurrence. -/
def decode (alphabet : List Nat) (input : List Nat) : Except DecodeError (List Nat) :=
  if input.isEmpty then .ok []
  else
    match decode_loop alphabet input 0 with
    | .error e => .error e
    | .ok big =>
      let bytes := (toDigitsLE 256 big).reverse
      let leader := alphabet.getD 0 0
      let leaders := (input.takeWhile (fun c => c == leader)).length
      .ok (List.replicate leaders 0 ++ bytes)

/-- Modelled from the spec: allocating encode (`encoder.rs` is not under
`src/`; spec section 4.3): load the bytes into a big integer, repeatedly
`div_mod(base)` collecting remainders least significant first, reverse, map
each digit through the forward lookup `alphabet[digit]`, and prepend one
zero symbol per leading zero byte of the input. -/
def encode (alphabet : List Nat) (input : List Nat) : List Nat :=
  let zeros := (input.takeWhile (fun byte => byte == 0)).length
  let v := beVal input
  List.replicate zeros (alphabet.getD 0 0) ++
    (toDigitsLE alphabet.length v).reverse.map (fun digit => alphabet.getD digit 0)

/-- Horner value accumulated by the decoders over an input text: each symbol's
reverse-lookup digit folded in as `value * base + digit`. -/
def hornerDigits (alphabet input : List Nat) : Nat :=
  input.foldl (fun v c => v * alphabet.length + (u8_carry alphabet c).getD 0) 0

/-- Number of leading zero-symbol occurrences of an input text. -/
def leadCount (alphabet input : List Nat) : Nat :=
  (input.takeWhile (fun c => c == alphabet.getD 0 0)).length

lemma foldl_msVal (B : Nat) (l : List Nat) (v : Nat) :
    l.foldl (fun a c => a * B + c) v = v * B ^ l.length + msVal B l := by
  induction l generalizing v with
  | nil => simp [msVal]
  | cons c t ih =>
    have hm : msVal B (c :: t) = c * B ^ t.length + msVal B t := by
      have : msVal B (c :: t) = t.foldl (fun a x => a * B + x) c := by
        simp [msVal]
      rw [this, ih c]
    simp only [List.foldl_cons, hm, ih (v * B + c), List.length_cons]
    ring

lemma msVal_cons (B c : Nat) (t : List Nat) :
    msVal B (c :: t) = c * B ^ t.length + msVal B t := by
  have : msVal B (c :: t) = t.foldl (fun a x => a * B + x) c := by simp [msVal]
  rw [this, foldl_msVal]

lemma msVal_append (B : Nat) (l1 l2 : List Nat) :
    msVal B (l1 ++ l2) = msVal B l1 * B ^ l2.length + msVal B l2 := by
  unfold msVal
  rw [List.foldl_append]
  exact foldl_msVal B l2 _

lemma msVal_replicate_zero (B k : Nat) : msVal B (List.replicate k 0) = 0 := by
  induction k with
  | zero => rfl
  | succ k ih => rw [List.replicate_succ, msVal_cons, ih, zero_mul, zero_add]

lemma msVal_replicate_zero_append (B k : Nat) (l : List Nat) :
    msVal B (List.replicate k 0 ++ l) = msVal B l := by
  rw [msVal_append, msVal_replicate_zero, zero_mul, zero_add]

lemma msVal_reverse (B : Nat) (l : List Nat) :
    msVal B l = Nat.ofDigits B l.reverse := by
  induction l using List.reverseRecOn with
  | nil => rfl
  | append_singleton l a ih =>
    rw [msVal_append, List.reverse_append]
    simp only [List.reverse_cons, List.reverse_nil, List.nil_append, List.singleton_append,
      List.length_singleton, Nat.ofDigits_cons, Nat.cast_id, pow_one]
    have h1 : msVal B [a] = a := by simp [msVal]
    rw [h1, ih]
    ring

lemma msVal_pos (B : Nat) (hB : 1 ≤ B) (c : Nat) (t : List Nat) (hc : c ≠ 0) :
    0 < msVal B (c :: t) := by
  rw [msVal_cons]
  have h1 : 0 < c * B ^ t.length :=
    Nat.mul_pos (Nat.pos_of_ne_zero hc) (Nat.pos_pow_of_pos _ hB)
  exact Nat.lt_of_lt_of_le h1 (Nat.le_add_right _ _)

lemma msVal_eq_zero_iff (B : Nat) (hB : 1 ≤ B) (l : List Nat) :
    msVal B l = 0 ↔ ∀ c ∈ l, c = 0 := by
  induction l with
  | nil => simp [msVal]
  | cons c t ih =>
    rw [msVal_cons]
    constructor
    · intro h
      have hc : c = 0 := by
        by_contra hc
        have hpos := msVal_pos B hB c t hc
        rw [msVal_cons] at hpos
        omega
      subst hc
      simp only [zero_mul, zero_add] at h
      intro x hx
      rcases List.mem_cons.mp hx with rfl | hx
      · rfl
      · exact ih.mp h x hx
    · intro h
      have hc : c = 0 := h c (List.mem_cons_self c t)
      have ht : msVal B t = 0 := ih.mpr fun x hx => h x (List.mem_cons_of_mem c hx)
      rw [hc, ht, zero_mul, zero_add]

lemma digitsVia_eq_digits (base : Nat) (hb : 2 ≤ base) :
    ∀ fuel v, v ≤ fuel → digitsVia base fuel v = Nat.digits base v := by
  intro fuel
  induction fuel with
  | zero =>
    intro v hv
    have : v = 0 := Nat.le_zero.mp hv
    subst this
    simp [digitsVia]
  | succ fuel ih =>
    intro v hv
    by_cases h : v = 0
    · subst h
      simp [digitsVia]
    · have hpos : 0 < v := Nat.pos_of_ne_zero h
      have hdiv : v / base < v := Nat.div_lt_self hpos (by omega)
      rw [show digitsVia base (fuel + 1) v = v % base :: digitsVia base fuel (v / base) by
          simp [digitsVia, h],
        Nat.digits_def' (by omega : 1 < base) hpos, ih (v / base) (by omega)]

lemma toDigitsLE_eq_digits (base : Nat) (hb : 2 ≤ base) (v : Nat) :
    toDigitsLE base v = Nat.digits base v :=
  digitsVia_eq_digits base hb v v le_rfl

lemma dropWhile_cases (p : Nat → Bool) (l : List Nat) :
    l.dropWhile p = [] ∨ ∃ c t, l.dropWhile p = c :: t ∧ p c = false := by
  induction l with
  | nil => exact Or.inl rfl
  | cons a t ih =>
    by_cases h : p a
    · simpa [List.dropWhile_cons, h] using ih
    · exact Or.inr ⟨a, t, by simp [List.dropWhile_cons, h], by simpa using h⟩

/-- Dropping the leading zeros of a most-significant-first digit list yields
exactly the digit list of its value: the minimal representation. -/
lemma minimal_rep (B : Nat) (hB : 2 ≤ B) (l : List Nat) (hl : ∀ x ∈ l, x < B) :
    (Nat.digits B (msVal B l)).reverse =
      l.drop ((l.takeWhile (fun x => x == 0)).length) := by
  have hsplit : l.takeWhile (fun x => x == 0) ++ l.dropWhile (fun x => x == 0) = l :=
    List.takeWhile_append_dropWhile (fun x => x == 0) l
  have htw : l.takeWhile (fun x => x == 0) =
      List.replicate (l.takeWhile (fun x => x == 0)).length 0 :=
    List.eq_replicate_of_mem (fun b hb => by
      have := List.mem_takeWhile_imp hb
      simpa using this)
  have hdrop : l.drop ((l.takeWhile (fun x => x == 0)).length) =
      l.dropWhile (fun x => x == 0) := by
    conv_rhs => rw [← List.drop_left (l.takeWhile (fun x => x == 0))
      (l.dropWhile (fun x => x == 0))]
    rw [hsplit]
  have hval : msVal B l = msVal B (l.dropWhile (fun x => x == 0)) := by
    conv_lhs => rw [← hsplit]
    rw [htw, msVal_replicate_zero_append]
  rcases dropWhile_cases (fun x => x == 0) l with h | ⟨c, t, hct, hpc⟩
  · rw [hdrop, h, hval, h]
    simp [msVal]
  · rw [hdrop, hct, hval, hct]
    have hc0 : c ≠ 0 := by simpa using hpc
    have hmem : ∀ x ∈ c :: t, x < B := by
      intro x hx
      apply hl
      have hsub : (l.dropWhile (fun x => x == 0)).Sublist l := List.dropWhile_sublist _
      rw [hct] at hsub
      exact hsub.subset hx
    have hlast : ∀ h : (c :: t).reverse ≠ [], (c :: t).reverse.getLast h ≠ 0 := by
      intro h
      have h3 : ((c :: t).reverse).getLast? = some c := by
        rw [← List.head?_reverse, List.reverse_reverse, List.head?_cons]
      have h5 : (c :: t).reverse.getLast h = c := by
        have h4 := List.getLast?_eq_getLast ((c :: t).reverse) h
        rw [h4] at h3
        exact Option.some_injective _ h3
      rw [h5]
      exact hc0
    rw [msVal_reverse, Nat.digits_ofDigits B (by omega) ((c :: t).reverse)
      (fun x hx => hmem x (List.mem_reverse.mp hx)) hlast,
      List.reverse_reverse]

lemma long_div_step (d t M X : Nat) (hd : 0 < d) :
    (t * X + M) / d = t / d * X + ((t % d) * X + M) / d ∧
    (t * X + M) % d = ((t % d) * X + M) % d := by
  constructor
  · conv_lhs => rw [← Nat.div_add_mod t d]
    rw [add_mul, mul_assoc, add_assoc, Nat.mul_add_div hd]
  · conv_lhs => rw [← Nat.div_add_mod t d]
    rw [add_mul, mul_assoc, add_assoc, Nat.mul_add_mod]

lemma divModLoop_length (d : Nat) :
    ∀ (l : List Nat) (carry : Nat), (divModLoop d l carry).1.length = l.length := by
  intro l
  induction l with
  | nil => intro carry; rfl
  | cons c rest ih =>
    intro carry
    simp only [divModLoop, List.length_cons, ih]

lemma divModLoop_rem_lt (d : Nat) (hd : 0 < d) :
    ∀ (l : List Nat) (carry : Nat), carry < d → (divModLoop d l carry).2 < d := by
  intro l
  induction l with
  | nil => intro carry h; exact h
  | cons c rest ih =>
    intro carry _
    simp only [divModLoop]
    exact ih _ (Nat.mod_lt _ hd)

lemma divModLoop_spec (d : Nat) (hd : 0 < d) :
    ∀ (l : List Nat) (carry : Nat), (∀ c ∈ l, c < 2^32) → carry < d →
    msVal (2^32) (divModLoop d l carry).1 =
      (carry * (2^32) ^ l.length + msVal (2^32) l) / d ∧
    (divModLoop d l carry).2 =
      (carry * (2^32) ^ l.length + msVal (2^32) l) % d ∧
    ∀ q ∈ (divModLoop d l carry).1, q < 2^32 := by
  intro l
  induction l with
  | nil =>
    intro carry _ hcarry
    refine ⟨?_, ?_, by simp [divModLoop]⟩
    · simp [divModLoop, msVal, Nat.div_eq_of_lt hcarry]
    · simp [divModLoop, msVal, Nat.mod_eq_of_lt hcarry]
  | cons c rest ih =>
    intro carry hwf hcarry
    have hc32 : c < 2^32 := hwf c (List.mem_cons_self c rest)
    have hrest : ∀ x ∈ rest, x < 2^32 := fun x hx => hwf x (List.mem_cons_of_mem c hx)
    have ht : carry * 2^32 + c < d * 2^32 := by
      calc carry * 2^32 + c < carry * 2^32 + 2^32 := by omega
        _ = (carry + 1) * 2^32 := by ring
        _ ≤ d * 2^32 := Nat.mul_le_mul_right _ (by omega)
    have hq : (carry * 2^32 + c) / d < 2^32 := Nat.div_lt_of_lt_mul ht
    have hqmod : (carry * 2^32 + c) / d % 2^32 = (carry * 2^32 + c) / d :=
      Nat.mod_eq_of_lt hq
    have hrec := ih ((carry * 2^32 + c) % d) hrest (Nat.mod_lt _ hd)
    have hkey := long_div_step d (carry * 2^32 + c) (msVal (2^32) rest)
      ((2^32) ^ rest.length) hd
    have hnum : carry * (2^32) ^ (c :: rest).length + msVal (2^32) (c :: rest)
        = (carry * 2^32 + c) * (2^32) ^ rest.length + msVal (2^32) rest := by
      rw [msVal_cons, List.length_cons, pow_succ]
      ring
    refine ⟨?_, ?_, ?_⟩
    · show msVal (2^32) ((carry * 2^32 + c) / d % 2^32 ::
        (divModLoop d rest ((carry * 2^32 + c) % d)).1) = _
      rw [msVal_cons, hqmod, divModLoop_length, hnum, hkey.1, hrec.1]
    · show (divModLoop d rest ((carry * 2^32 + c) % d)).2 = _
      rw [hnum, hkey.2, hrec.2.1]
    · intro q hq2
      rcases List.mem_cons.mp hq2 with rfl | hq2
      · rw [hqmod]; exact hq
      · exact hrec.2.2 q hq2

lemma mulAddLoop_length (m : Nat) :
    ∀ (l : List Nat) (carry : Nat), (mulAddLoop m l carry).1.length = l.length := by
  intro l
  induction l with
  | nil => intro carry; rfl
  | cons c rest ih =>
    intro carry
    simp only [mulAddLoop, List.length_cons, ih]

lemma mulAddLoop_wf (m : Nat) :
    ∀ (l : List Nat) (carry : Nat), ∀ x ∈ (mulAddLoop m l carry).1, x < 2^32 := by
  intro l
  induction l with
  | nil => intro carry x hx; simp [mulAddLoop] at hx
  | cons c rest ih =>
    intro carry x hx
    simp only [mulAddLoop] at hx
    rcases List.mem_cons.mp hx with rfl | hx
    · exact Nat.mod_lt _ (by norm_num)
    · exact ih _ x hx

lemma mulAddLoop_spec (m : Nat) :
    ∀ (l : List Nat) (carry : Nat),
    Nat.ofDigits (2^32) (mulAddLoop m l carry).1 +
      (mulAddLoop m l carry).2 * (2^32) ^ l.length =
    Nat.ofDigits (2^32) l * m + carry := by
  intro l
  induction l with
  | nil => intro carry; simp [mulAddLoop, Nat.ofDigits_nil]
  | cons c rest ih =>
    intro carry
    have ihc := ih ((c * m + carry) / 2^32)
    have hmd := Nat.mod_add_div (c * m + carry) (2^32)
    show (Nat.ofDigits (2^32) ((c * m + carry) % 2^32 ::
        (mulAddLoop m rest ((c * m + carry) / 2^32)).1) : ℕ) +
      (mulAddLoop m rest ((c * m + carry) / 2^32)).2 * (2^32) ^ (c :: rest).length =
      Nat.ofDigits (2^32) (c :: rest) * m + carry
    rw [Nat.ofDigits_cons, Nat.ofDigits_cons, List.length_cons,
      pow_succ (2^32 : Nat) rest.length]
    calc (c * m + carry) % 2^32 +
          2^32 * Nat.ofDigits (2^32) (mulAddLoop m rest ((c * m + carry) / 2^32)).1 +
          (mulAddLoop m rest ((c * m + carry) / 2^32)).2 * ((2^32) ^ rest.length * 2^32)
        = (c * m + carry) % 2^32 +
          2^32 * (Nat.ofDigits (2^32) (mulAddLoop m rest ((c * m + carry) / 2^32)).1 +
            (mulAddLoop m rest ((c * m + carry) / 2^32)).2 * (2^32) ^ rest.length) := by
          ring
      _ = (c * m + carry) % 2^32 +
          2^32 * (Nat.ofDigits (2^32) rest * m + (c * m + carry) / 2^32) := by rw [ihc]
      _ = ((c * m + carry) % 2^32 + 2^32 * ((c * m + carry) / 2^32)) +
          2^32 * (Nat.ofDigits (2^32) rest * m) := by ring
      _ = (c * m + carry) + 2^32 * (Nat.ofDigits (2^32) rest * m) := by rw [hmd]
      _ = (c + 2^32 * Nat.ofDigits (2^32) rest) * m + carry := by ring

/-- On success without a residual carry, `mul_add` maps the all-chunk value
`V` to `V * m + a`, preserving chunk count and the `len` field. -/
lemma mul_add_ok (b : BigUintStatic) (m a : Nat)
    (hfit : msVal (2^32) b.chunks * m + a < (2^32) ^ b.chunks.length) :
    ∃ ch, b.mul_add m a = .ok ⟨ch, b.len⟩ ∧
      msVal (2^32) ch = msVal (2^32) b.chunks * m + a ∧
      ch.length = b.chunks.length ∧ ∀ x ∈ ch, x < 2^32 := by
  by_cases hemp : b.chunks = []
  · refine ⟨[], ?_, ?_, by rw [hemp], by simp⟩
    · show b.mul_add m a = .ok ⟨[], b.len⟩
      have hb : b = ⟨[], b.len⟩ := by
        cases b
        simp_all
      rw [hb]
      rfl
    · rw [hemp] at hfit ⊢
      simp only [msVal, List.foldl_nil, List.length_nil, pow_zero, zero_mul,
        zero_add] at hfit ⊢
      omega
  · have hne : b.chunks.isEmpty = false := by
      cases h : b.chunks.isEmpty
      · rfl
      · exact absurd (List.isEmpty_iff.mp h) hemp
    have hlen : b.chunks.reverse.length = b.chunks.length := List.length_reverse _
    have hspec := mulAddLoop_spec m b.chunks.reverse a
    have hof : Nat.ofDigits (2^32) b.chunks.reverse = msVal (2^32) b.chunks :=
      (msVal_reverse _ _).symm
    rw [hof, hlen] at hspec
    have hcarry0 : (mulAddLoop m b.chunks.reverse a).2 = 0 := by
      by_contra h
      have h1 : 1 ≤ (mulAddLoop m b.chunks.reverse a).2 := Nat.pos_of_ne_zero h
      have h2 : (2^32 : Nat) ^ b.chunks.length ≤
          (mulAddLoop m b.chunks.reverse a).2 * (2^32) ^ b.chunks.length :=
        Nat.le_mul_of_pos_left _ h1
      have h3 : (mulAddLoop m b.chunks.reverse a).2 * (2^32) ^ b.chunks.length ≤
          msVal (2^32) b.chunks * m + a := hspec ▸ Nat.le_add_left _ _
      exact absurd hfit (not_lt.mpr (le_trans h2 h3))
    refine ⟨(mulAddLoop m b.chunks.reverse a).1.reverse, ?_, ?_, ?_, ?_⟩
    · show b.mul_add m a = _
      unfold BigUintStatic.mul_add
      rw [hne]
      simp only [Bool.false_eq_true, if_false, hcarry0]
      rfl
    · rw [msVal_reverse, List.reverse_reverse]
      rw [hcarry0, zero_mul, add_zero] at hspec
      exact hspec
    · rw [List.length_reverse, mulAddLoop_length, hlen]
    · intro x hx
      exact mulAddLoop_wf m _ a x (List.mem_reverse.mp hx)

/-- C3: for every `BigUintStatic` with `u32` chunks representing value `V`
(most significant first, all `N` chunks) and every divider `1 ≤ d < 2^32`,
`div_mod d` leaves chunks representing `V / d` and returns `V % d`. -/
theorem div_mod_correct (b : BigUintStatic) (d : Nat)
    (hwf : ∀ c ∈ b.chunks, c < 2^32) (hd : 1 ≤ d) (hd32 : d < 2^32) :
    msVal (2^32) (b.div_mod d).1.chunks = msVal (2^32) b.chunks / d ∧
    (b.div_mod d).2 = msVal (2^32) b.chunks % d := by
  have h := divModLoop_spec d hd b.chunks 0 hwf hd
  have hlt := divModLoop_rem_lt d hd b.chunks 0 hd
  constructor
  · show msVal (2^32) (divModLoop d b.chunks 0).1 = _
    rw [h.1, zero_mul, zero_add]
  · show (divModLoop d b.chunks 0).2 % 2^32 = _
    rw [Nat.mod_eq_of_lt (lt_trans hlt hd32), h.2.1, zero_mul, zero_add]

/-- Witness for C3 at a concrete input: two chunks divided by 58. -/
theorem div_mod_correct_witness :
    ((∀ c ∈ ([0x136AD712, 0x84322759] : List Nat), c < 2^32) ∧ 1 ≤ 58 ∧ 58 < 2^32) ∧
    (msVal (2^32) ((⟨[0x136AD712, 0x84322759], 2⟩ : BigUintStatic).div_mod 58).1.chunks =
      msVal (2^32) [0x136AD712, 0x84322759] / 58 ∧
    ((⟨[0x136AD712, 0x84322759], 2⟩ : BigUintStatic).div_mod 58).2 =
      msVal (2^32) [0x136AD712, 0x84322759] % 58) :=
  ⟨⟨by decide, by norm_num, by norm_num⟩,
    div_mod_correct ⟨[0x136AD712, 0x84322759], 2⟩ 58 (by decide) (by norm_num) (by norm_num)⟩

/-- C10: `div_mod` never divides by zero under the precondition `d ≥ 1`
(the embedding is total), and the returned remainder is strictly below the
divider. -/
theorem div_mod_rem_lt (b : BigUintStatic) (d : Nat) (hd : 1 ≤ d) (hd32 : d < 2^32) :
    (b.div_mod d).2 < d := by
  have hlt := divModLoop_rem_lt d hd b.chunks 0 hd
  show (divModLoop d b.chunks 0).2 % 2^32 < d
  rw [Nat.mod_eq_of_lt (lt_trans hlt hd32)]
  exact hlt

/-- Witness for C10 at a concrete input. -/
theorem div_mod_rem_lt_witness :
    ((1 : Nat) ≤ 58 ∧ (58 : Nat) < 2^32) ∧
    ((⟨[7, 123456789], 2⟩ : BigUintStatic).div_mod 58).2 < 58 :=
  ⟨⟨by norm_num, by norm_num⟩,
    div_mod_rem_lt ⟨[7, 123456789], 2⟩ 58 (by norm_num) (by norm_num)⟩

/-- C4: for every `BigUintStatic` with `u32` chunks representing `V` and
`u32` arguments `m`, `a` such that `V * m + a` still fits in the `N` chunks,
`mul_add m a` returns `Ok` and the chunks afterwards represent `V * m + a`. -/
theorem mul_add_correct (b : BigUintStatic) (m a : Nat)
    (hwf : ∀ c ∈ b.chunks, c < 2^32) (hm : m < 2^32) (ha : a < 2^32)
    (hfit : msVal (2^32) b.chunks * m + a < 2 ^ (32 * b.chunks.length)) :
    ∃ ch, b.mul_add m a = .ok ⟨ch, b.len⟩ ∧
      msVal (2^32) ch = msVal (2^32) b.chunks * m + a ∧
      ch.length = b.chunks.length := by
  have hpow : (2 : Nat) ^ (32 * b.chunks.length) = (2^32) ^ b.chunks.length := by
    rw [pow_mul]
  rw [hpow] at hfit
  obtain ⟨ch, h1, h2, h3, _⟩ := mul_add_ok b m a hfit
  exact ⟨ch, h1, h2, h3⟩

/-- Witness for C4 at a concrete input: the repo's own unit test values. -/
theorem mul_add_correct_witness :
    ((∀ c ∈ ([0x000AD712, 0x84322759] : List Nat), c < 2^32) ∧ (58 : Nat) < 2^32 ∧
      (37 : Nat) < 2^32 ∧
      msVal (2^32) [0x000AD712, 0x84322759] * 58 + 37 < 2 ^ (32 * 2)) ∧
    (∃ ch, (⟨[0x000AD712, 0x84322759], 2⟩ : BigUintStatic).mul_add 58 37 = .ok ⟨ch, 2⟩ ∧
      msVal (2^32) ch = msVal (2^32) [0x000AD712, 0x84322759] * 58 + 37 ∧
      ch.length = 2) :=
  ⟨⟨by decide, by norm_num, by norm_num, by decide⟩,
    mul_add_correct ⟨[0x000AD712, 0x84322759], 2⟩ 58 37 (by decide) (by norm_num)
      (by norm_num) (by decide)⟩

lemma bytesOfChunks_length : ∀ l : List Nat, (bytesOfChunks l).length = l.length * 4 := by
  intro l
  induction l with
  | nil => rfl
  | cons c rest ih =>
    show (toBytesBE4 c ++ bytesOfChunks rest).length = _
    rw [List.length_append, ih]
    simp [toBytesBE4, List.length_cons]
    ring

lemma bytesOfChunks_wf : ∀ l : List Nat, ∀ x ∈ bytesOfChunks l, x < 256 := by
  intro l
  induction l with
  | nil => intro x hx; simp [bytesOfChunks] at hx
  | cons c rest ih =>
    intro x hx
    rcases List.mem_append.mp hx with hx | hx
    · simp only [toBytesBE4, List.mem_cons, List.not_mem_nil, or_false] at hx
      rcases hx with rfl | rfl | rfl | rfl <;> exact Nat.mod_lt _ (by norm_num)
    · exact ih x hx

lemma msVal_toBytesBE4 (c : Nat) (hc : c < 2^32) : msVal 256 (toBytesBE4 c) = c := by
  show ((((0 * 256 + c / 2^24 % 256) * 256 + c / 2^16 % 256) * 256 + c / 2^8 % 256) * 256 +
    c % 256) = c
  omega

lemma msVal_bytesOfChunks : ∀ l : List Nat, (∀ c ∈ l, c < 2^32) →
    msVal 256 (bytesOfChunks l) = msVal (2^32) l := by
  intro l
  induction l with
  | nil => intro _; simp [msVal, bytesOfChunks]
  | cons c rest ih =>
    intro hwf
    have hc := hwf c (List.mem_cons_self c rest)
    have hrest : ∀ x ∈ rest, x < 2^32 := fun x hx => hwf x (List.mem_cons_of_mem c hx)
    show msVal 256 (toBytesBE4 c ++ bytesOfChunks rest) = _
    rw [msVal_append, ih hrest, msVal_toBytesBE4 c hc, msVal_cons, bytesOfChunks_length]
    have hp : (256 : Nat) ^ (rest.length * 4) = (2^32) ^ rest.length := by
      rw [show (256 : Nat) = 2^8 by norm_num, ← pow_mul, ← pow_mul]
      congr 1
      ring
    rw [hp]

lemma size_succ_div_two (n : Nat) (hn : n ≠ 0) : Nat.size n = Nat.size (n / 2) + 1 := by
  have hb : Nat.bit n.bodd n.div2 = n := Nat.bit_decomp n
  have hb2 : Nat.bit n.bodd n.div2 ≠ 0 := by rw [hb]; exact hn
  calc Nat.size n = Nat.size (Nat.bit n.bodd n.div2) := by rw [hb]
    _ = Nat.size n.div2 + 1 := Nat.size_bit hb2
    _ = Nat.size (n / 2) + 1 := by rw [Nat.div2_val]

lemma bitLen_eq_size : ∀ (fuel n : Nat), n < 2^fuel → bitLen fuel n = Nat.size n := by
  intro fuel
  induction fuel with
  | zero =>
    intro n h
    have h0 : n = 0 := by simpa using h
    subst h0
    simp [bitLen]
  | succ f ih =>
    intro n h
    by_cases h0 : n = 0
    · subst h0
      simp [bitLen]
    · have hp : (2 : Nat)^(f + 1) = 2 * 2^f := by ring
      show (if n = 0 then 0 else bitLen f (n / 2) + 1) = _
      rw [if_neg h0, ih (n / 2) (by omega), ← size_succ_div_two n h0]

lemma takeWhile_toBytes_append (c : Nat) (hc : c ≠ 0) (hlt : c < 2^32) (tail : List Nat) :
    ((toBytesBE4 c ++ tail).takeWhile (fun b => b == 0)).length = u32_leading_zeros c / 8 := by
  have hbl : bitLen 32 c = Nat.size c := bitLen_eq_size 32 c hlt
  have hs_pos : 0 < Nat.size c := Nat.size_pos.mpr (Nat.pos_of_ne_zero hc)
  by_cases h8 : c < 2^8
  · have hb0 : c / 2^24 % 256 = 0 := by rw [Nat.div_eq_of_lt (by omega)]
    have hb1 : c / 2^16 % 256 = 0 := by rw [Nat.div_eq_of_lt (by omega)]
    have hb2 : c / 2^8 % 256 = 0 := by rw [Nat.div_eq_of_lt (by omega)]
    have hb3 : ((c % 256 == 0) : Bool) = false := by
      simp [Nat.mod_eq_of_lt (show c < 256 by omega), hc]
    have hsz : Nat.size c ≤ 8 := Nat.size_le.mpr (by omega)
    show ((c / 2^24 % 256 :: c / 2^16 % 256 :: c / 2^8 % 256 :: c % 256 :: tail).takeWhile
      (fun b => b == 0)).length = u32_leading_zeros c / 8
    rw [hb0, hb1, hb2]
    simp only [List.takeWhile_cons, hb3]
    norm_num [u32_leading_zeros, hbl]
    omega
  · by_cases h16 : c < 2^16
    · have hb0 : c / 2^24 % 256 = 0 := by rw [Nat.div_eq_of_lt (by omega)]
      have hb1 : c / 2^16 % 256 = 0 := by rw [Nat.div_eq_of_lt (by omega)]
      have hd : 0 < c / 2^8 := Nat.div_pos (by omega) (by norm_num)
      have hdlt : c / 2^8 < 256 := Nat.div_lt_of_lt_mul (by omega)
      have hb2 : ((c / 2^8 % 256 == 0) : Bool) = false := by
        simp [Nat.mod_eq_of_lt hdlt]
        omega
      have hsz1 : Nat.size c ≤ 16 := Nat.size_le.mpr (by omega)
      have hsz2 : 8 < Nat.size c := Nat.lt_size.mpr (by omega)
      show ((c / 2^24 % 256 :: c / 2^16 % 256 :: c / 2^8 % 256 :: c % 256 :: tail).takeWhile
        (fun b => b == 0)).length = u32_leading_zeros c / 8
      rw [hb0, hb1]
      simp only [List.takeWhile_cons, hb2]
      norm_num [u32_leading_zeros, hbl]
      omega
    · by_cases h24 : c < 2^24
      · have hb0 : c / 2^24 % 256 = 0 := by rw [Nat.div_eq_of_lt (by omega)]
        have hd : 0 < c / 2^16 := Nat.div_pos (by omega) (by norm_num)
        have hdlt : c / 2^16 < 256 := Nat.div_lt_of_lt_mul (by omega)
        have hb1 : ((c / 2^16 % 256 == 0) : Bool) = false := by
          simp [Nat.mod_eq_of_lt hdlt]
          omega
        have hsz1 : Nat.size c ≤ 24 := Nat.size_le.mpr (by omega)
        have hsz2 : 16 < Nat.size c := Nat.lt_size.mpr (by omega)
        show ((c / 2^24 % 256 :: c / 2^16 % 256 :: c / 2^8 % 256 :: c % 256 :: tail).takeWhile
          (fun b => b == 0)).length = u32_leading_zeros c / 8
        rw [hb0]
        simp only [List.takeWhile_cons, hb1]
        norm_num [u32_leading_zeros, hbl]
        omega
      · have hd : 0 < c / 2^24 := Nat.div_pos (by omega) (by norm_num)
        have hdlt : c / 2^24 < 256 := Nat.div_lt_of_lt_mul (by omega)
        have hb0 : ((c / 2^24 % 256 == 0) : Bool) = false := by
          simp [Nat.mod_eq_of_lt hdlt]
          omega
        have hsz1 : Nat.size c ≤ 32 := Nat.size_le.mpr (by omega)
        have hsz2 : 24 < Nat.size c := Nat.lt_size.mpr (by omega)
        show ((c / 2^24 % 256 :: c / 2^16 % 256 :: c / 2^8 % 256 :: c % 256 :: tail).takeWhile
          (fun b => b == 0)).length = u32_leading_zeros c / 8
        simp only [List.takeWhile_cons, hb0]
        norm_num [u32_leading_zeros, hbl]
        omega

lemma takeWhile_bytesOfChunks : ∀ l : List Nat, (∀ c ∈ l, c < 2^32) →
    ((bytesOfChunks l).takeWhile (fun b => b == 0)).length = skipOf l := by
  intro l
  induction l with
  | nil => intro _; rfl
  | cons c rest ih =>
    intro hwf
    have hc := hwf c (List.mem_cons_self c rest)
    have hrest : ∀ x ∈ rest, x < 2^32 := fun x hx => hwf x (List.mem_cons_of_mem c hx)
    by_cases h0 : c = 0
    · subst h0
      show ((toBytesBE4 0 ++ bytesOfChunks rest).takeWhile (fun b => b == 0)).length =
        skipOf (0 :: rest)
      have ht : toBytesBE4 0 = [0, 0, 0, 0] := rfl
      rw [ht]
      show ((0 :: 0 :: 0 :: 0 :: bytesOfChunks rest).takeWhile (fun b => b == 0)).length = _
      simp only [List.takeWhile_cons, show ((0 == 0) : Bool) = true from rfl, if_true,
        List.length_cons, skipOf, if_neg (by simp : ¬(0 : Nat) ≠ 0)]
      rw [ih hrest]
      omega
    · show ((toBytesBE4 c ++ bytesOfChunks rest).takeWhile (fun b => b == 0)).length =
        skipOf (c :: rest)
      rw [takeWhile_toBytes_append c h0 hc]
      simp [skipOf, h0]

lemma skipOf_le (l : List Nat) (hwf : ∀ c ∈ l, c < 2^32) : skipOf l ≤ l.length * 4 := by
  rw [← takeWhile_bytesOfChunks l hwf, ← bytesOfChunks_length]
  exact (List.takeWhile_sublist _).length_le

/-- Unified behavior of `into_bytes_be`: with `rep` the minimal big-endian
representation of the all-chunk value, the call errors exactly when the
output buffer is shorter than `rep`, and otherwise writes `rep` into the
front of the buffer, leaving the tail unchanged. -/
lemma into_bytes_be_spec (b : BigUintStatic) (output : List Nat)
    (hwf : ∀ c ∈ b.chunks, c < 2^32) :
    b.into_bytes_be output =
      if output.length < ((Nat.digits 256 (msVal (2^32) b.chunks)).reverse).length then
        .error (output.length, ((Nat.digits 256 (msVal (2^32) b.chunks)).reverse).length)
      else .ok ((Nat.digits 256 (msVal (2^32) b.chunks)).reverse ++
        output.drop ((Nat.digits 256 (msVal (2^32) b.chunks)).reverse).length) := by
  have hbv : msVal 256 (bytesOfChunks b.chunks) = msVal (2^32) b.chunks :=
    msVal_bytesOfChunks b.chunks hwf
  have hskip := takeWhile_bytesOfChunks b.chunks hwf
  have hrep : (Nat.digits 256 (msVal (2^32) b.chunks)).reverse =
      (bytesOfChunks b.chunks).drop (skipOf b.chunks) := by
    rw [← hskip, ← hbv]
    exact minimal_rep 256 (by norm_num) _ (bytesOfChunks_wf _)
  have hlenb := bytesOfChunks_length b.chunks
  have hreplen : ((Nat.digits 256 (msVal (2^32) b.chunks)).reverse).length =
      b.chunks.length * 4 - skipOf b.chunks := by
    rw [hrep, List.length_drop, hlenb]
  show (if b.chunks.length * 4 - skipOf b.chunks = 0 then
      (.ok output : Except (Nat × Nat) (List Nat))
    else if output.length < b.chunks.length * 4 - skipOf b.chunks then
      .error (output.length, b.chunks.length * 4 - skipOf b.chunks)
    else .ok ((bytesOfChunks b.chunks).drop (skipOf b.chunks) ++
      output.drop (b.chunks.length * 4 - skipOf b.chunks))) = _
  by_cases h0 : b.chunks.length * 4 - skipOf b.chunks = 0
  · rw [if_pos h0]
    have hrep0 : (Nat.digits 256 (msVal (2^32) b.chunks)).reverse = [] :=
      List.length_eq_zero.mp (by rw [hreplen, h0])
    rw [hrep0]
    simp
  · rw [if_neg h0, ← hreplen, ← hrep]

/-- C5: `into_bytes_be` writes exactly the minimal-length big-endian
representation of the value into the front of the output buffer and returns
`Ok` when the buffer is long enough, errors exactly when the buffer is
shorter than that representation, and at value zero writes nothing. -/
theorem into_bytes_be_minimal (b : BigUintStatic) (output : List Nat)
    (hwf : ∀ c ∈ b.chunks, c < 2^32) :
    b.into_bytes_be output =
      (if output.length < ((Nat.digits 256 (msVal (2^32) b.chunks)).reverse).length then
        .error (output.length, ((Nat.digits 256 (msVal (2^32) b.chunks)).reverse).length)
      else .ok ((Nat.digits 256 (msVal (2^32) b.chunks)).reverse ++
        output.drop ((Nat.digits 256 (msVal (2^32) b.chunks)).reverse).length)) ∧
    (msVal (2^32) b.chunks = 0 → b.into_bytes_be output = .ok output) := by
  refine ⟨into_bytes_be_spec b output hwf, fun hz => ?_⟩
  rw [into_bytes_be_spec b output hwf, hz]
  simp

/-- Witness for C5 at a concrete input: one chunk of value 5, buffer `[7, 8]`. -/
theorem into_bytes_be_minimal_witness :
    (∀ c ∈ ([5] : List Nat), c < 2^32) ∧
    ((⟨[5], 1⟩ : BigUintStatic).into_bytes_be [7, 8] =
      (if ([7, 8] : List Nat).length <
          ((Nat.digits 256 (msVal (2^32) [5])).reverse).length then
        .error (([7, 8] : List Nat).length,
          ((Nat.digits 256 (msVal (2^32) [5])).reverse).length)
      else .ok ((Nat.digits 256 (msVal (2^32) [5])).reverse ++
        ([7, 8] : List Nat).drop ((Nat.digits 256 (msVal (2^32) [5])).reverse).length)) ∧
    (msVal (2^32) [5] = 0 →
      (⟨[5], 1⟩ : BigUintStatic).into_bytes_be [7, 8] = .ok [7, 8])) :=
  ⟨by decide, into_bytes_be_minimal ⟨[5], 1⟩ [7, 8] (by decide)⟩

lemma u8_fold_not_key (ps : List (Nat × Nat)) : ∀ (t0 : Nat → Nat) (c : Nat),
    (∀ p ∈ ps, p.2 ≠ c) →
    (ps.foldl (fun lookup p => fun c2 => if c2 = p.2 then p.1 % 256 else lookup c2) t0) c
      = t0 c := by
  induction ps with
  | nil => intro t0 c _; rfl
  | cons p ps ih =>
    intro t0 c h
    show (ps.foldl _ (fun c2 => if c2 = p.2 then p.1 % 256 else t0 c2)) c = t0 c
    rw [ih _ c (fun q hq => h q (List.mem_cons_of_mem p hq))]
    exact if_neg (fun hc => (h p (List.mem_cons_self p ps)) hc.symm)

lemma u8_fold_enumFrom (l : List Nat) : l.Nodup → ∀ (n : Nat) (t0 : Nat → Nat) (i : Nat)
    (hi : i < l.length),
    ((l.enumFrom n).foldl (fun lookup p => fun c2 => if c2 = p.2 then p.1 % 256 else lookup c2)
      t0) (l.get ⟨i, hi⟩) = (n + i) % 256 := by
  induction l with
  | nil => intro _ n t0 i hi; simp at hi
  | cons a l ih =>
    intro hnd n t0 i hi
    obtain ⟨ha, hl⟩ := List.nodup_cons.mp hnd
    show ((List.enumFrom (n + 1) l).foldl _ (fun c2 => if c2 = a then n % 256 else t0 c2))
      ((a :: l).get ⟨i, hi⟩) = (n + i) % 256
    cases i with
    | zero =>
      have hget0 : (a :: l).get ⟨0, hi⟩ = a := rfl
      rw [hget0]
      have hkeys : ∀ p ∈ List.enumFrom (n + 1) l, p.2 ≠ a := by
        intro p hp hpa
        have hmem : p.2 ∈ l := by
          have hmap := List.enumFrom_map_snd (n + 1) l
          exact hmap ▸ List.mem_map_of_mem Prod.snd hp
        exact ha (hpa ▸ hmem)
      rw [u8_fold_not_key _ _ _ hkeys]
      simp
    | succ j =>
      have hj : j < l.length := by simpa using hi
      have hget : (a :: l).get ⟨j + 1, hi⟩ = l.get ⟨j, hj⟩ := rfl
      rw [hget, ih hl (n + 1) _ j hj]
      congr 1
      omega

lemma u8_table_get (alphabet : List Nat) (hnd : alphabet.Nodup) (i : Nat)
    (hi : i < alphabet.length) :
    u8_table alphabet (alphabet.get ⟨i, hi⟩) = i % 256 := by
  have h := u8_fold_enumFrom alphabet hnd 0 (fun _ => 255) i hi
  simpa [u8_table, List.enum] using h

lemma nodup_ascii_length (alphabet : List Nat) (hnd : alphabet.Nodup)
    (hascii : ∀ c ∈ alphabet, c < 128) : alphabet.length ≤ 128 := by
  have h1 : alphabet.toFinset.card = alphabet.length := List.toFinset_card_of_nodup hnd
  have h2 : alphabet.toFinset ⊆ Finset.range 128 := by
    intro x hx
    rw [Finset.mem_range]
    exact hascii x (List.mem_toFinset.mp hx)
  have h3 := Finset.card_le_card h2
  simpa [h1, Finset.card_range] using h3

lemma u8_carry_get (alphabet : List Nat) (hnd : alphabet.Nodup)
    (hascii : ∀ c ∈ alphabet, c < 128) (i : Nat) (hi : i < alphabet.length) :
    u8_carry alphabet (alphabet.get ⟨i, hi⟩) = some i := by
  have hlen := nodup_ascii_length alphabet hnd hascii
  have hi128 : i < 128 := lt_of_lt_of_le hi hlen
  have ht := u8_table_get alphabet hnd i hi
  rw [Nat.mod_eq_of_lt (by omega)] at ht
  unfold u8_carry
  rw [ht, if_neg (by omega)]

lemma u8_carry_none_iff (alphabet : List Nat) (hnd : alphabet.Nodup)
    (hascii : ∀ c ∈ alphabet, c < 128) (c : Nat) :
    u8_carry alphabet c = none ↔ c ∉ alphabet := by
  constructor
  · intro h hc
    obtain ⟨⟨i, hi⟩, heq⟩ := List.mem_iff_get.mp hc
    rw [← heq, u8_carry_get alphabet hnd hascii i hi] at h
    simp at h
  · intro h
    have hkeys : ∀ p ∈ alphabet.enum, p.2 ≠ c := by
      intro p hp hpc
      apply h
      have hmem : p.2 ∈ alphabet := by
        have hmap := List.enumFrom_map_snd 0 alphabet
        exact hmap ▸ List.mem_map_of_mem Prod.snd hp
      exact hpc ▸ hmem
    show (if u8_table alphabet c = 255 then none else some (u8_table alphabet c)) = none
    have ht : u8_table alphabet c = 255 := by
      unfold u8_table
      rw [u8_fold_not_key alphabet.enum (fun _ => 255) c hkeys]
    rw [ht, if_pos rfl]

lemma decode_loop_ok (alphabet : List Nat) : ∀ (input : List Nat) (v : Nat),
    (∀ c ∈ input, u8_carry alphabet c ≠ none) →
    decode_loop alphabet input v =
      .ok (input.foldl (fun a c => a * alphabet.length + (u8_carry alphabet c).getD 0) v) := by
  intro input
  induction input with
  | nil => intro v _; rfl
  | cons c rest ih =>
    intro v h
    rcases hc : u8_carry alphabet c with _ | d
    · exact absurd hc (h c (List.mem_cons_self c rest))
    · have hstep : decode_loop alphabet (c :: rest) v =
          decode_loop alphabet rest (v * alphabet.length + d) := by
        show (match u8_carry alphabet c with
          | some carry => decode_loop alphabet rest (v * alphabet.length + carry)
          | none => .error ⟨⟩) = _
        rw [hc]
      rw [hstep, ih _ (fun x hx => h x (List.mem_cons_of_mem c hx))]
      congr 1
      simp [hc]

lemma decode_loop_error_iff (alphabet : List Nat) : ∀ (input : List Nat) (v : Nat),
    decode_loop alphabet input v = .error ⟨⟩ ↔ ∃ c ∈ input, u8_carry alphabet c = none := by
  intro input
  induction input with
  | nil =>
    intro v
    constructor
    · intro h; cases h
    · rintro ⟨c, hc, _⟩; simp at hc
  | cons c rest ih =>
    intro v
    rcases hc : u8_carry alphabet c with _ | d
    · constructor
      · intro _; exact ⟨c, List.mem_cons_self c rest, hc⟩
      · intro _
        show (match u8_carry alphabet c with
          | some carry => decode_loop alphabet rest (v * alphabet.length + carry)
          | none => .error ⟨⟩) = .error ⟨⟩
        rw [hc]
    · have hstep : decode_loop alphabet (c :: rest) v =
          decode_loop alphabet rest (v * alphabet.length + d) := by
        show (match u8_carry alphabet c with
          | some carry => decode_loop alphabet rest (v * alphabet.length + carry)
          | none => .error ⟨⟩) = _
        rw [hc]
      rw [hstep, ih]
      constructor
      · rintro ⟨x, hx, hnone⟩
        exact ⟨x, List.mem_cons_of_mem c hx, hnone⟩
      · rintro ⟨x, hx, hnone⟩
        rcases List.mem_cons.mp hx with rfl | hx
        · rw [hc] at hnone; cases hnone
        · exact ⟨x, hx, hnone⟩

/-- C7: the allocating decode fails with `DecodeError` exactly when some input
character's reverse lookup misses (and, the error being the whole result, it
produces no byte output); for a duplicate-free ASCII alphabet a reverse
lookup misses exactly on the characters outside the alphabet. -/
theorem decode_error_iff (alphabet input : List Nat) (hnd : alphabet.Nodup)
    (hascii : ∀ c ∈ alphabet, c < 128) :
    (decode alphabet input = .error ⟨⟩ ↔ ∃ c ∈ input, u8_carry alphabet c = none) ∧
    (∀ c, u8_carry alphabet c = none ↔ c ∉ alphabet) := by
  refine ⟨?_, fun c => u8_carry_none_iff alphabet hnd hascii c⟩
  unfold decode
  by_cases hemp : input.isEmpty
  · rw [if_pos hemp]
    have he : input = [] := List.isEmpty_iff.mp hemp
    subst he
    constructor
    · intro h; cases h
    · rintro ⟨c, hc, _⟩; simp at hc
  · rw [if_neg hemp]
    rcases hloop : decode_loop alphabet input 0 with e | v
    · cases e
      exact iff_of_true rfl ((decode_loop_error_iff alphabet input 0).mp hloop)
    · refine iff_of_false (fun h => ?_) (fun hex => ?_)
      · cases h
      · have h2 := (decode_loop_error_iff alphabet input 0).mpr hex
        rw [hloop] at h2
        cases h2

/-- Witness for C7 at a concrete input: alphabet `"01"`, input `"02"` (the
byte `50` is not a symbol). -/
theorem decode_error_iff_witness :
    (([48, 49] : List Nat).Nodup ∧ (∀ c ∈ ([48, 49] : List Nat), c < 128)) ∧
    ((decode [48, 49] [48, 50] = .error ⟨⟩ ↔
      ∃ c ∈ ([48, 50] : List Nat), u8_carry [48, 49] c = none) ∧
    (∀ c, u8_carry [48, 49] c = none ↔ c ∉ ([48, 49] : List Nat))) :=
  ⟨⟨by decide, by decide⟩, decode_error_iff [48, 49] [48, 50] (by decide) (by decide)⟩

/-- The guard of `from_bytes_be` is dead: the function always succeeds, with
`len = 0`, for every capacity and every byte list (in the source, oversized
input reaches the unchecked copy instead of the error). -/
lemma from_bytes_be_ok (N : Nat) (bytes : List Nat) :
    BigUintStatic.from_bytes_be N bytes =
      .ok ⟨toChunksBE ((List.replicate
          (if bytes.length % 4 > 0 then 4 - bytes.length % 4 else 0) 0
        ++ bytes ++ List.replicate (4 * N) 0).take (4 * N)), 0⟩ := by
  have hgf : ¬(bytes.length >
      (bytes.length / 4 + (if bytes.length % 4 > 0 then 1 else 0)) * 4) := by
    by_cases h4 : bytes.length % 4 > 0
    · rw [if_pos h4]
      omega
    · rw [if_neg h4]
      omega
  unfold BigUintStatic.from_bytes_be
  rw [if_neg hgf]

lemma from_bytes_be_len (N : Nat) (bytes : List Nat) (b : BigUintStatic)
    (h : BigUintStatic.from_bytes_be N bytes = .ok b) : b.len = 0 := by
  rw [from_bytes_be_ok] at h
  injection h with h2
  rw [← h2]

/-- C2 (code bug): with alphabet `"01"`, `BACKING = 1` and the 33-symbol
input `"1" * 33` — whose value `2^33 - 1` needs two chunks — `decode_mut`
returns `Ok` with the corrupt single byte `[0x01]` instead of a
`DecodeError`: `mul_add`'s overflow check compares the incremented `len`
field (which starts at 0) against `N` rather than detecting the lost carry,
so the carry overwrites the most-significant chunk.  The allocating decode
of the same input yields the true value `[0x01, 0xFF, 0xFF, 0xFF, 0xFF]`. -/
theorem decode_mut_capacity_bug :
    decode_mut 1 [48, 49] [0] (List.replicate 33 49) = .ok [1] ∧
    decode [48, 49] (List.replicate 33 49) = .ok [1, 255, 255, 255, 255] ∧
    ([1] : List Nat) ≠ [1, 255, 255, 255, 255] :=
  ⟨rfl, rfl, by decide⟩

/-- C6 (code bug): `from_bytes_be` never returns an error — its capacity
guard `bytes.len() > len * 4` is vacuous because `len` is computed from
`bytes.len()` itself — and on five bytes with a one-chunk capacity the
unchecked copy does not fit the backing array (out-of-bounds write in the
source; the model truncates). -/
theorem from_bytes_be_guard_dead :
    (∀ (N : Nat) (bytes : List Nat), ∃ b, BigUintStatic.from_bytes_be N bytes = .ok b) ∧
    (BigUintStatic.from_bytes_be 1 [1, 2, 3, 4, 5]).toOption = some ⟨[1], 0⟩ ∧
    from_bytes_copy_fits 1 [1, 2, 3, 4, 5] = false :=
  ⟨fun N bytes => ⟨_, from_bytes_be_ok N bytes⟩, rfl, rfl⟩

/-- C9 counterexample: `from_bytes_be` packs the byte `[1]` into the chunk
array but leaves `len = 0`, so the value computed over the first `len`
chunks is `0` while `div_mod` — which sweeps all `N` chunks — extracts
remainder `1`: a chunk at position `≥ len` participates in arithmetic, and
the `len`-truncated sum does not equal the represented value. -/
theorem len_field_counterexample :
    BigUintStatic.from_bytes_be 1 [1] = .ok ⟨[1], 0⟩ ∧
    msVal (2^32) (([1] : List Nat).take 0) = 0 ∧
    ((⟨[1], 0⟩ : BigUintStatic).div_mod 58).2 = 1 :=
  ⟨rfl, rfl, rfl⟩

/-- C9 amended: arithmetic operates on all `N` chunks regardless of the
`len` field — `div_mod`, `is_zero` and `into_bytes_be` are independent of
`len`, `is_zero` holds exactly when the all-chunk value is zero, and
`from_bytes_be` initialises `len` to `0` whatever it packs (`len` only
feeds `mul_add`'s overflow bookkeeping). -/
theorem arithmetic_ignores_len (chunks : List Nat) (l1 l2 d : Nat) (out : List Nat)
    (N : Nat) (bytes : List Nat) (b : BigUintStatic)
    (hfb : BigUintStatic.from_bytes_be N bytes = .ok b) :
    ((⟨chunks, l1⟩ : BigUintStatic).div_mod d).1.chunks =
      ((⟨chunks, l2⟩ : BigUintStatic).div_mod d).1.chunks ∧
    ((⟨chunks, l1⟩ : BigUintStatic).div_mod d).2 =
      ((⟨chunks, l2⟩ : BigUintStatic).div_mod d).2 ∧
    (⟨chunks, l1⟩ : BigUintStatic).is_zero = (⟨chunks, l2⟩ : BigUintStatic).is_zero ∧
    (⟨chunks, l1⟩ : BigUintStatic).into_bytes_be out =
      (⟨chunks, l2⟩ : BigUintStatic).into_bytes_be out ∧
    ((⟨chunks, l1⟩ : BigUintStatic).is_zero = true ↔ msVal (2^32) chunks = 0) ∧
    b.len = 0 := by
  refine ⟨rfl, rfl, rfl, rfl, ?_, from_bytes_be_len N bytes b hfb⟩
  show (chunks.all (fun chunk => chunk == 0)) = true ↔ msVal (2^32) chunks = 0
  rw [List.all_eq_true, msVal_eq_zero_iff (2^32) (by norm_num) chunks]
  constructor <;> intro h x hx <;> simpa using h x hx

/-- Witness for the amended C9 at concrete inputs. -/
theorem arithmetic_ignores_len_witness :
    (BigUintStatic.from_bytes_be 1 [1] = .ok (⟨[1], 0⟩ : BigUintStatic)) ∧
    (((⟨[7], 0⟩ : BigUintStatic).div_mod 5).1.chunks =
      ((⟨[7], 3⟩ : BigUintStatic).div_mod 5).1.chunks ∧
    ((⟨[7], 0⟩ : BigUintStatic).div_mod 5).2 = ((⟨[7], 3⟩ : BigUintStatic).div_mod 5).2 ∧
    (⟨[7], 0⟩ : BigUintStatic).is_zero = (⟨[7], 3⟩ : BigUintStatic).is_zero ∧
    (⟨[7], 0⟩ : BigUintStatic).into_bytes_be [9] =
      (⟨[7], 3⟩ : BigUintStatic).into_bytes_be [9] ∧
    ((⟨[7], 0⟩ : BigUintStatic).is_zero = true ↔ msVal (2^32) [7] = 0) ∧
    (⟨[1], 0⟩ : BigUintStatic).len = 0) :=
  ⟨rfl, arithmetic_ignores_len [7] 0 3 5 [9] 1 [1] ⟨[1], 0⟩ rfl⟩

lemma u8_carry_empty_alphabet (c : Nat) : u8_carry [] c = none := rfl

lemma horner_foldl_ge (B : Nat) (hB : 1 ≤ B) (dig : Nat → Nat) :
    ∀ (l : List Nat) (w : Nat), w ≤ l.foldl (fun v c => v * B + dig c) w := by
  intro l
  induction l with
  | nil => intro w; exact le_rfl
  | cons c rest ih =>
    intro w
    have h1 : w ≤ w * B + dig c := by
      have h2 : w * 1 ≤ w * B := Nat.mul_le_mul_left w hB
      omega
    exact le_trans h1 (ih (w * B + dig c))

/-- When every input symbol resolves and the final Horner value fits the
backing capacity, the `decode_mut` accumulation loop succeeds and the final
big integer holds exactly that Horner value. -/
lemma decode_mut_loop_ok (alphabet : List Nat) (hbase : 1 ≤ alphabet.length) :
    ∀ (input : List Nat) (b : BigUintStatic),
    (∀ c ∈ b.chunks, c < 2^32) →
    (∀ c ∈ input, u8_carry alphabet c ≠ none) →
    input.foldl (fun v c => v * alphabet.length + (u8_carry alphabet c).getD 0)
      (msVal (2^32) b.chunks) < (2^32) ^ b.chunks.length →
    ∃ b2, decode_mut_loop alphabet input b = .ok b2 ∧
      msVal (2^32) b2.chunks =
        input.foldl (fun v c => v * alphabet.length + (u8_carry alphabet c).getD 0)
          (msVal (2^32) b.chunks) ∧
      b2.chunks.length = b.chunks.length ∧ ∀ c ∈ b2.chunks, c < 2^32 := by
  intro input
  induction input with
  | nil => intro b hwf _ hcap; exact ⟨b, rfl, rfl, rfl, hwf⟩
  | cons c rest ih =>
    intro b hwf hvalid hcap
    rcases hc : u8_carry alphabet c with _ | d
    · exact absurd hc (hvalid c (List.mem_cons_self c rest))
    · have hfold : (c :: rest).foldl
          (fun v x => v * alphabet.length + (u8_carry alphabet x).getD 0)
          (msVal (2^32) b.chunks) =
        rest.foldl (fun v x => v * alphabet.length + (u8_carry alphabet x).getD 0)
          (msVal (2^32) b.chunks * alphabet.length + d) := by
        show rest.foldl _
          (msVal (2^32) b.chunks * alphabet.length + (u8_carry alphabet c).getD 0) = _
        rw [hc]
        rfl
      have hstep_le : msVal (2^32) b.chunks * alphabet.length + d ≤
          (c :: rest).foldl (fun v x => v * alphabet.length + (u8_carry alphabet x).getD 0)
            (msVal (2^32) b.chunks) := by
        rw [hfold]
        exact horner_foldl_ge alphabet.length hbase _ rest _
      have hfit : msVal (2^32) b.chunks * alphabet.length + d <
          (2^32) ^ b.chunks.length := lt_of_le_of_lt hstep_le hcap
      obtain ⟨ch, hok, hval, hlen, hwf2⟩ := mul_add_ok b alphabet.length d hfit
      have hstep : decode_mut_loop alphabet (c :: rest) b =
          decode_mut_loop alphabet rest ⟨ch, b.len⟩ := by
        show (match u8_carry alphabet c with
          | some carry =>
            match b.mul_add alphabet.length carry with
            | .ok big2 => decode_mut_loop alphabet rest big2
            | .error _ => .error ⟨⟩
          | none => .error ⟨⟩) = _
        rw [hc]
        show (match b.mul_add alphabet.length d with
          | .ok big2 => decode_mut_loop alphabet rest big2
          | .error _ => .error ⟨⟩) = _
        rw [hok]
      have hcap2 : rest.foldl
          (fun v x => v * alphabet.length + (u8_carry alphabet x).getD 0)
          (msVal (2^32) ch) < (2^32) ^ ch.length := by
        rw [hval, hlen, ← hfold]
        exact hcap
      obtain ⟨b2, h1, h2, h3, h4⟩ := ih ⟨ch, b.len⟩ hwf2
        (fun x hx => hvalid x (List.mem_cons_of_mem c hx)) hcap2
      refine ⟨b2, by rw [hstep]; exact h1, ?_, ?_, h4⟩
      · rw [h2]
        show rest.foldl _ (msVal (2^32) ch) = _
        rw [hval, hfold]
      · rw [h3]
        show ch.length = b.chunks.length
        exact hlen

/-- C8 counterexample: with alphabet `"01"`, input `"01"` (one leading zero
symbol, value 1) and a caller buffer `[0xBB, 0xCC]` of the exact size 2,
`decode_mut` rotates the stale byte `0xCC` to the front, producing
`[0xCC, 0x01]`, while the allocating decode prepends a zero byte and yields
`[0x00, 0x01]`: without a zero-initialized buffer the two paths differ. -/
theorem rotate_prefix_counterexample :
    decode_mut 1 [48, 49] [187, 204] [48, 49] = .ok [204, 1] ∧
    decode [48, 49] [48, 49] = .ok [0, 1] ∧
    ([204, 1] : List Nat) ≠ [0, 1] :=
  ⟨rfl, rfl, by decide⟩

/-- C8 amended: for a valid input text with `k` leading zero symbols, the
allocating decode prepends exactly `k` zero bytes to the minimal big-endian
export, and `decode_mut` reaches the same final buffer contents by the left
rotation provided the caller's buffer is zero-initialized and sized exactly
`k` plus the minimal export length (the rotation brings the `k` untouched
zero bytes of the buffer's tail to the front). -/
theorem decode_mut_matches_decode (alphabet input : List Nat) (BACKING : Nat)
    (hvalid : ∀ c ∈ input, u8_carry alphabet c ≠ none)
    (hcap : hornerDigits alphabet input < 2 ^ (32 * BACKING)) :
    decode_mut BACKING alphabet
      (List.replicate (leadCount alphabet input +
        (Nat.digits 256 (hornerDigits alphabet input)).length) 0) input =
      .ok (List.replicate (leadCount alphabet input) 0 ++
        (Nat.digits 256 (hornerDigits alphabet input)).reverse) ∧
    decode alphabet input =
      .ok (List.replicate (leadCount alphabet input) 0 ++
        (Nat.digits 256 (hornerDigits alphabet input)).reverse) := by
  by_cases hemp : input = []
  · subst hemp
    constructor
    · simp [decode_mut, hornerDigits, leadCount]
    · simp [decode, hornerDigits, leadCount]
  · have hemp2 : input.isEmpty = false := by
      cases h : input.isEmpty
      · rfl
      · exact absurd (List.isEmpty_iff.mp h) hemp
    have hbase : 1 ≤ alphabet.length := by
      rcases input with _ | ⟨c0, rest0⟩
      · exact absurd rfl hemp
      · by_contra hb
        have ha0 : alphabet = [] := by
          have : alphabet.length = 0 := by omega
          exact List.length_eq_zero.mp this
        exact hvalid c0 (List.mem_cons_self c0 rest0)
          (ha0 ▸ u8_carry_empty_alphabet c0)
    have hdec : decode alphabet input =
        .ok (List.replicate (leadCount alphabet input) 0 ++
          (toDigitsLE 256 (hornerDigits alphabet input)).reverse) := by
      unfold decode
      rw [if_neg (by rw [hemp2]; exact Bool.false_ne_true),
        decode_loop_ok alphabet input 0 hvalid]
      rfl
    rw [toDigitsLE_eq_digits 256 (by norm_num)] at hdec
    refine ⟨?_, hdec⟩
    have hdef : (BigUintStatic.default BACKING).chunks = List.replicate BACKING 0 := rfl
    have hwf0 : ∀ c ∈ (BigUintStatic.default BACKING).chunks, c < 2^32 := by
      rw [hdef]
      intro c hc
      rw [List.eq_of_mem_replicate hc]
      norm_num
    have hval0 : msVal (2^32) (BigUintStatic.default BACKING).chunks = 0 := by
      rw [hdef]; exact msVal_replicate_zero _ _
    have hlen0 : (BigUintStatic.default BACKING).chunks.length = BACKING := by
      rw [hdef]; exact List.length_replicate _ _
    have hcap0 : input.foldl
        (fun v c => v * alphabet.length + (u8_carry alphabet c).getD 0)
        (msVal (2^32) (BigUintStatic.default BACKING).chunks) <
        (2^32) ^ (BigUintStatic.default BACKING).chunks.length := by
      rw [hval0, hlen0, ← pow_mul]
      exact hcap
    obtain ⟨b2, hloop, hval2, hlen2, hwf2⟩ :=
      decode_mut_loop_ok alphabet hbase input (BigUintStatic.default BACKING)
        hwf0 hvalid hcap0
    have hv2 : msVal (2^32) b2.chunks = hornerDigits alphabet input := by
      rw [hval2, hval0]
      rfl
    have hibb : b2.into_bytes_be (List.replicate (leadCount alphabet input +
        (Nat.digits 256 (hornerDigits alphabet input)).length) 0) =
        .ok ((Nat.digits 256 (hornerDigits alphabet input)).reverse ++
          List.replicate (leadCount alphabet input) 0) := by
      rw [into_bytes_be_spec b2 _ hwf2, hv2]
      rw [if_neg (by
        rw [List.length_replicate, List.length_reverse]
        omega)]
      rw [List.length_reverse, List.drop_replicate]
      rw [show leadCount alphabet input +
          (Nat.digits 256 (hornerDigits alphabet input)).length -
          (Nat.digits 256 (hornerDigits alphabet input)).length =
          leadCount alphabet input by omega]
    have hred : decode_mut BACKING alphabet
        (List.replicate (leadCount alphabet input +
          (Nat.digits 256 (hornerDigits alphabet input)).length) 0) input =
        (match b2.into_bytes_be (List.replicate (leadCount alphabet input +
            (Nat.digits 256 (hornerDigits alphabet input)).length) 0) with
        | .error _ => .error ⟨⟩
        | .ok out2 => .ok (rotate_left out2 (out2.length -
            (input.takeWhile (fun c => c == alphabet.getD 0 0)).length))) := by
      unfold decode_mut
      rw [if_neg (by rw [hemp2]; exact Bool.false_ne_true), hloop]
    rw [hred, hibb]
    show Except.ok (rotate_left ((Nat.digits 256 (hornerDigits alphabet input)).reverse ++
        List.replicate (leadCount alphabet input) 0)
      (((Nat.digits 256 (hornerDigits alphabet input)).reverse ++
        List.replicate (leadCount alphabet input) 0).length -
        (input.takeWhile (fun c => c == alphabet.getD 0 0)).length)) = _
    have hlc : (input.takeWhile (fun c => c == alphabet.getD 0 0)).length =
        leadCount alphabet input := rfl
    have hlen3 : ((Nat.digits 256 (hornerDigits alphabet input)).reverse ++
        List.replicate (leadCount alphabet input) 0).length =
        (Nat.digits 256 (hornerDigits alphabet input)).reverse.length +
          leadCount alphabet input := by
      rw [List.length_append, List.length_replicate]
    have hrot : rotate_left ((Nat.digits 256 (hornerDigits alphabet input)).reverse ++
        List.replicate (leadCount alphabet input) 0)
        ((Nat.digits 256 (hornerDigits alphabet input)).reverse.length +
          leadCount alphabet input - leadCount alphabet input) =
        List.replicate (leadCount alphabet input) 0 ++
          (Nat.digits 256 (hornerDigits alphabet input)).reverse := by
      rw [show (Nat.digits 256 (hornerDigits alphabet input)).reverse.length +
          leadCount alphabet input - leadCount alphabet input =
          (Nat.digits 256 (hornerDigits alphabet input)).reverse.length by omega]
      unfold rotate_left
      rw [List.drop_left, List.take_left]
    rw [hlc, hlen3, hrot]

/-- Witness for the amended C8 at a concrete input: alphabet `"01"`,
input `"01"`, one backing chunk. -/
theorem decode_mut_matches_decode_witness :
    ((∀ c ∈ ([48, 49] : List Nat), u8_carry [48, 49] c ≠ none) ∧
      hornerDigits [48, 49] [48, 49] < 2 ^ (32 * 1)) ∧
    (decode_mut 1 [48, 49]
      (List.replicate (leadCount [48, 49] [48, 49] +
        (Nat.digits 256 (hornerDigits [48, 49] [48, 49])).length) 0) [48, 49] =
      .ok (List.replicate (leadCount [48, 49] [48, 49]) 0 ++
        (Nat.digits 256 (hornerDigits [48, 49] [48, 49])).reverse) ∧
    decode [48, 49] [48, 49] =
      .ok (List.replicate (leadCount [48, 49] [48, 49]) 0 ++
        (Nat.digits 256 (hornerDigits [48, 49] [48, 49])).reverse)) :=
  ⟨⟨by decide, by decide⟩,
    decode_mut_matches_decode [48, 49] [48, 49] 1 (by decide) (by decide)⟩

lemma takeWhile_replicate_append (p : Nat → Bool) (z : Nat) (hp : p z = true) :
    ∀ (k : Nat) (ms : List Nat),
    (List.replicate k z ++ ms).takeWhile p = List.replicate k z ++ ms.takeWhile p := by
  intro k
  induction k with
  | zero => intro ms; simp
  | succ k ih =>
    intro ms
    rw [List.replicate_succ, List.cons_append, List.takeWhile_cons, if_pos hp, ih ms,
      List.cons_append]

/-- C1: for every duplicate-free ASCII alphabet of at least two symbols and
every byte sequence, the allocating decode inverts the allocating encode. -/
theorem encode_decode_round_trip (alphabet b : List Nat)
    (hnd : alphabet.Nodup) (hascii : ∀ c ∈ alphabet, c < 128)
    (hbase : 2 ≤ alphabet.length) (hb : ∀ x ∈ b, x < 256) :
    decode alphabet (encode alphabet b) = .ok b := by
  have h0len : 0 < alphabet.length := by omega
  have hzget : alphabet.getD 0 0 = alphabet.get ⟨0, h0len⟩ := List.getD_eq_get alphabet 0 h0len
  have hcz : u8_carry alphabet (alphabet.getD 0 0) = some 0 := by
    rw [hzget]
    exact u8_carry_get alphabet hnd hascii 0 h0len
  have hdigz : (u8_carry alphabet (alphabet.getD 0 0)).getD 0 = 0 := by rw [hcz]; rfl
  have henc : encode alphabet b =
      List.replicate ((b.takeWhile (fun x => x == 0)).length) (alphabet.getD 0 0) ++
      (Nat.digits alphabet.length (beVal b)).reverse.map (fun d => alphabet.getD d 0) := by
    show List.replicate ((b.takeWhile (fun x => x == 0)).length) (alphabet.getD 0 0) ++
      (toDigitsLE alphabet.length (beVal b)).reverse.map (fun d => alphabet.getD d 0) = _
    rw [toDigitsLE_eq_digits alphabet.length hbase]
  have hfwd : ∀ d ∈ Nat.digits alphabet.length (beVal b),
      u8_carry alphabet (alphabet.getD d 0) = some d := by
    intro d hd
    have hdlt : d < alphabet.length := Nat.digits_lt_base (by omega) hd
    rw [List.getD_eq_get alphabet 0 hdlt]
    exact u8_carry_get alphabet hnd hascii d hdlt
  have hvalid : ∀ c ∈ encode alphabet b, u8_carry alphabet c ≠ none := by
    intro c hc
    rw [henc] at hc
    rcases List.mem_append.mp hc with hc | hc
    · rw [List.eq_of_mem_replicate hc, hcz]
      simp
    · obtain ⟨d, hd, rfl⟩ := List.mem_map.mp hc
      rw [hfwd d (List.mem_reverse.mp hd)]
      simp
  have hexport : (Nat.digits 256 (beVal b)).reverse =
      b.drop ((b.takeWhile (fun x => x == 0)).length) :=
    minimal_rep 256 (by norm_num) b hb
  have hmap : (encode alphabet b).map (fun c => (u8_carry alphabet c).getD 0) =
      List.replicate ((b.takeWhile (fun x => x == 0)).length) 0 ++
      (Nat.digits alphabet.length (beVal b)).reverse := by
    rw [henc, List.map_append, List.map_replicate, hdigz, List.map_map]
    congr 1
    have hpt : ∀ d ∈ (Nat.digits alphabet.length (beVal b)).reverse,
        ((fun c => (u8_carry alphabet c).getD 0) ∘ (fun d => alphabet.getD d 0)) d = id d := by
      intro d hd
      show (u8_carry alphabet (alphabet.getD d 0)).getD 0 = d
      rw [hfwd d (List.mem_reverse.mp hd)]
      rfl
    rw [List.map_congr_left hpt, List.map_id]
  have hval_eq : (encode alphabet b).foldl
      (fun a c => a * alphabet.length + (u8_carry alphabet c).getD 0) 0 = beVal b := by
    have h1 : (encode alphabet b).foldl
        (fun a c => a * alphabet.length + (u8_carry alphabet c).getD 0) 0 =
        msVal alphabet.length
          ((encode alphabet b).map (fun c => (u8_carry alphabet c).getD 0)) := by
      show _ = ((encode alphabet b).map fun c => (u8_carry alphabet c).getD 0).foldl
        (fun v c => v * alphabet.length + c) 0
      rw [List.foldl_map]
    rw [h1, hmap, msVal_replicate_zero_append, msVal_reverse, List.reverse_reverse,
      Nat.ofDigits_digits]
  have hdropk : b.drop ((b.takeWhile (fun x => x == 0)).length) =
      b.dropWhile (fun x => x == 0) := by
    conv_rhs => rw [← List.drop_left (b.takeWhile (fun x => x == 0))
      (b.dropWhile (fun x => x == 0))]
    rw [List.takeWhile_append_dropWhile]
  have htwz : b.takeWhile (fun x => x == 0) =
      List.replicate ((b.takeWhile (fun x => x == 0)).length) 0 :=
    List.eq_replicate_of_mem (fun x hx => by simpa using List.mem_takeWhile_imp hx)
  have hfinal : List.replicate ((b.takeWhile (fun x => x == 0)).length) 0 ++
      b.drop ((b.takeWhile (fun x => x == 0)).length) = b := by
    rw [hdropk, ← htwz, List.takeWhile_append_dropWhile]
  by_cases hbemp : b = []
  · subst hbemp
    have henc0 : encode alphabet [] = [] := by
      rw [henc]
      have hval0 : beVal ([] : List Nat) = 0 := rfl
      rw [hval0]
      simp
    rw [henc0]
    rfl
  · have hms_tw : ((Nat.digits alphabet.length (beVal b)).reverse.map
        (fun d => alphabet.getD d 0)).takeWhile (fun c => c == alphabet.getD 0 0) = [] := by
      by_cases hv0 : beVal b = 0
      · rw [hv0]
        simp
      · have hds_ne : Nat.digits alphabet.length (beVal b) ≠ [] :=
          Nat.digits_ne_nil_iff_ne_zero.mpr hv0
        have hrev_ne : (Nat.digits alphabet.length (beVal b)).reverse ≠ [] := by
          simpa [List.reverse_eq_nil_iff] using hds_ne
        rcases hrev : (Nat.digits alphabet.length (beVal b)).reverse with _ | ⟨d0, tl⟩
        · exact absurd hrev hrev_ne
        · have hd0last : d0 = (Nat.digits alphabet.length (beVal b)).getLast hds_ne := by
            have h1 : (Nat.digits alphabet.length (beVal b)).reverse.head? = some d0 := by
              rw [hrev]
              rfl
            rw [List.head?_reverse,
              List.getLast?_eq_getLast (Nat.digits alphabet.length (beVal b)) hds_ne] at h1
            exact (Option.some_injective _ h1).symm
          have hd0_ne : d0 ≠ 0 := by
            rw [hd0last]
            exact Nat.getLast_digit_ne_zero alphabet.length hv0
          have hd0mem : d0 ∈ Nat.digits alphabet.length (beVal b) := by
            rw [hd0last]
            exact List.getLast_mem hds_ne
          have hd0lt : d0 < alphabet.length := Nat.digits_lt_base (by omega) hd0mem
          have hne : (alphabet.getD d0 0 == alphabet.getD 0 0) = false := by
            rw [List.getD_eq_get alphabet 0 hd0lt, hzget]
            rw [beq_eq_false_iff_ne]
            intro heq
            exact hd0_ne (congrArg Fin.val ((hnd.get_inj_iff).mp heq))
          simp only [List.map_cons, List.takeWhile_cons, hne]
          rfl
    have hleaders : ((encode alphabet b).takeWhile
        (fun c => c == alphabet.getD 0 0)).length =
        (b.takeWhile (fun x => x == 0)).length := by
      rw [henc, takeWhile_replicate_append (fun c => c == alphabet.getD 0 0)
          (alphabet.getD 0 0) (by simp) _ _,
        hms_tw, List.append_nil, List.length_replicate]
    have hinput_ne : (encode alphabet b).isEmpty = false := by
      cases hie : (encode alphabet b).isEmpty
      · rfl
      · exfalso
        have he : encode alphabet b = [] := List.isEmpty_iff.mp hie
        rw [henc] at he
        obtain ⟨h1, h2⟩ := List.append_eq_nil.mp he
        have hk0 : (b.takeWhile (fun x => x == 0)).length = 0 := by
          simpa [List.replicate_eq_nil] using h1
        have hds0 : Nat.digits alphabet.length (beVal b) = [] := by
          have h3 := List.map_eq_nil.mp h2
          simpa [List.reverse_eq_nil_iff] using h3
        have hv0 : beVal b = 0 := Nat.digits_eq_nil_iff_eq_zero.mp hds0
        have h4 : (Nat.digits 256 (beVal b)).reverse = b.drop 0 := hk0 ▸ hexport
        rw [hv0] at h4
        simp at h4
        exact hbemp h4
    unfold decode
    rw [if_neg (by rw [hinput_ne]; exact Bool.false_ne_true)]
    rw [decode_loop_ok alphabet (encode alphabet b) 0 hvalid]
    show Except.ok (List.replicate (((encode alphabet b).takeWhile
        (fun c => c == alphabet.getD 0 0)).length) 0 ++
      (toDigitsLE 256 ((encode alphabet b).foldl
        (fun a c => a * alphabet.length + (u8_carry alphabet c).getD 0) 0)).reverse) =
      Except.ok b
    rw [hval_eq, toDigitsLE_eq_digits 256 (by norm_num), hleaders, hexport, hfinal]

/-- Witness for C1 at a concrete input: alphabet `"01"`, bytes `[255, 0]`. -/
theorem encode_decode_round_trip_witness :
    (([48, 49] : List Nat).Nodup ∧ (∀ c ∈ ([48, 49] : List Nat), c < 128) ∧
      2 ≤ ([48, 49] : List Nat).length ∧ (∀ x ∈ ([255, 0] : List Nat), x < 256)) ∧
    decode [48, 49] (encode [48, 49] [255, 0]) = .ok [255, 0] :=
  ⟨⟨by decide, by decide, by decide, by decide⟩,
    encode_decode_round_trip [48, 49] [255, 0] (by decide) (by decide) (by decide) (by decide)⟩

end BaseX
